import Mathlib

/-!
# Verification of the VRC-RoboScore image pipeline

Shallow embedding of the algorithmic core of the RoboScore repository:

* `image_scaler.py` — resolution normalizer (`ImageScaler`),
* `color_mapper.py` — occlusion (white tape) locator, median height
  estimation and tape-region interpolation / rasterization,
* `new_detection.py` — resolution-adaptive watershed ball detector
  (`BallDetector`).

Modelling conventions:

* Python `int` values that are provably non-negative are modelled as `ℕ`;
  values that may be negative as `ℤ`.
* Python floating point arithmetic is modelled by exact rational
  arithmetic over `ℚ`; decimal literals in the source (`0.25`, `0.45`,
  `0.0036`, ...) are taken at their exact decimal value.
* Python `int(x)` (truncation towards zero) is `pyInt`.
* A Python list `counts` is a `List ℕ`; `counts[x]` is `counts.getD x 0`
  (all theorems only inspect indices inside the list, where the two
  agree).
* Python `max(range, key=...)`, which raises `ValueError` on an empty
  range, is modelled with an `Option` result (`none` = exception).
* Calls into OpenCV (`distanceTransform`, `connectedComponents`,
  `watershed`) are external library calls, not repository code; they are
  abstracted as function parameters (`CVOps`), constrained only by
  explicitly stated library contracts where a theorem needs them.
-/

namespace RoboScore

/-- Python `int(q)`: truncation of a real (here rational) towards zero. -/
def pyInt (q : ℚ) : ℤ := if q < 0 then -⌊-q⌋ else ⌊q⌋

/-! ## Resolution normalizer (`image_scaler.py`)

`ImageScaler.__init__` fixes `self.min_width = 1000`.
`calculate_scale_factor` runs
`while original_width / (scale_divisor + 1) >= self.min_width: scale_divisor += 1`
starting from `scale_divisor = 1` and returns `1.0 / scale_divisor`.
The loop guard `w / (d+1) >= 1000` over exact arithmetic is
`1000 * (d+1) <= w`.  The loop is embedded with explicit fuel (the number
of remaining iterations is bounded by the fuel whenever
`1000 * (d + fuel + 1) > w`, which `calculate_scale_factor` instantiates
with fuel `w`). -/
def scaleDivisorGo (w : ℕ) : ℕ → ℕ → ℕ
  | 0, d => d
  | fuel + 1, d => if 1000 * (d + 1) ≤ w then scaleDivisorGo w fuel (d + 1) else d

/-- `ImageScaler.calculate_scale_factor`, returning the integer divisor
`scale_divisor` (the source returns `1.0 / scale_divisor`). -/
def calculate_scale_factor (w : ℕ) : ℕ := scaleDivisorGo w w 1

/-- Width of the image produced by `ImageScaler.scale_image`:
`int(width * actual_scale)` with `actual_scale = 1 / scale_divisor`,
i.e. `⌊w / d⌋`. -/
def scale_image_width (w : ℕ) : ℕ := w / calculate_scale_factor w

/-! ## Occlusion locator (`color_mapper.analyze_white_tape`)

`TAPE_SEARCH_REGIONS = {'left_start': 0.25, 'left_end': 0.45,
'right_start': 0.55, 'right_end': 0.75, 'height_threshold': 0.20}`.
The decimal fractions are modelled exactly: `int(width * 0.25) = ⌊width/4⌋`,
`int(width * 0.45) = ⌊9·width/20⌋`, and so on. -/

/-- The left search zone `range(int(width*0.25), int(width*0.45))`. -/
def left_zone (width : ℕ) : List ℕ :=
  List.range' (width / 4) (9 * width / 20 - width / 4)

/-- The right search zone `range(int(width*0.55), int(width*0.75))`. -/
def right_zone (width : ℕ) : List ℕ :=
  List.range' (11 * width / 20) (3 * width / 4 - 11 * width / 20)

/-- `int(max_height * 0.20)`. -/
def height_threshold (max_height : ℕ) : ℕ := max_height / 5

/-- The ranking key of the peak search:
`lambda x: counts[x] if counts[x] > height_threshold else 0`. -/
def tape_key (counts : List ℕ) (th x : ℕ) : ℕ :=
  if th < counts.getD x 0 then counts.getD x 0 else 0

/-- Python `max(iterable, key=key)`: the first element attaining the
maximal key; `none` when the iterable is empty (`ValueError`). -/
def maxByKey (key : ℕ → ℕ) : List ℕ → Option ℕ
  | [] => none
  | x :: xs => some (xs.foldl (fun b y => if key b < key y then y else b) x)

/-- Leftward scan of `find_tape_edges`:
`while left_edge > 0 and counts[left_edge] > threshold: left_edge -= 1`. -/
def edge_left_scan (counts : List ℕ) (th : ℕ) : ℕ → ℕ
  | 0 => 0
  | p + 1 => if th < counts.getD (p + 1) 0 then edge_left_scan counts th p else p + 1

/-- Rightward scan of `find_tape_edges` with explicit fuel; the loop
moves right while `right_edge < width - 1`, so `width - 1 - p` steps of
fuel make the fuel never run out. -/
def edge_right_go (counts : List ℕ) (th w : ℕ) : ℕ → ℕ → ℕ
  | 0, p => p
  | fuel + 1, p =>
    if p < w - 1 ∧ th < counts.getD p 0 then edge_right_go counts th w fuel (p + 1) else p

/-- Rightward scan of `find_tape_edges`:
`while right_edge < width - 1 and counts[right_edge] > threshold: right_edge += 1`. -/
def edge_right_scan (counts : List ℕ) (th w p : ℕ) : ℕ :=
  edge_right_go counts th w (w - 1 - p) p

/-- `find_tape_edges(peak_pos)`. -/
def find_tape_edges (counts : List ℕ) (th w peak : ℕ) : ℕ × ℕ :=
  (edge_left_scan counts th peak, edge_right_scan counts th w peak)

/-- `analyze_white_tape(counts, width, max_height)`; `none` models the
`ValueError` raised by Python's `max` on an empty search zone. -/
def analyze_white_tape (counts : List ℕ) (width max_height : ℕ) :
    Option ((ℕ × ℕ) × (ℕ × ℕ)) :=
  match maxByKey (tape_key counts (height_threshold max_height)) (left_zone width),
        maxByKey (tape_key counts (height_threshold max_height)) (right_zone width) with
  | some lp, some rp =>
    some (find_tape_edges counts (height_threshold max_height) width lp,
          find_tape_edges counts (height_threshold max_height) width rp)
  | _, _ => none

/-! ## Median estimation and tape-region interpolation
(`color_mapper.calculate_median_height`, `process_tape_regions`) -/

/-- The strictly positive values among `counts[start:end]`
(`[count for count in counts[start:end] if count > 0]`). -/
def positive_heights (counts : List ℕ) (s e : ℕ) : List ℕ :=
  ((counts.drop s).take (e - s)).filter (fun c => decide (0 < c))

/-- `calculate_median_height(counts, start, end)`: Python
`sorted(valid_heights)[len(valid_heights) // 2]`, or 0 when no column in
the range is positive.  Python `sorted` is modelled with
`insertionSort`: over naturals the ascending sorted list is unique, so
any sort agrees with it. -/
def calculate_median_height (counts : List ℕ) (s e : ℕ) : ℕ :=
  if (positive_heights counts s e).isEmpty then 0
  else ((positive_heights counts s e).insertionSort (· ≤ ·)).getD
    ((positive_heights counts s e).length / 2) 0

/-- `sample_range = max(1, int(0.0036 * width))` (`0.0036 = 9/2500`). -/
def sample_range (width : ℕ) : ℕ := max 1 (pyInt (9 / 2500 * (width : ℚ))).toNat

/-- Membership of column `x` in the half-open span `[lo, hi)` visited by
`for x in range(lo, hi)`. -/
def inRegion (lo hi x : ℕ) : Prop := lo ≤ x ∧ x < hi

instance (lo hi x : ℕ) : Decidable (inRegion lo hi x) :=
  inferInstanceAs (Decidable (lo ≤ x ∧ x < hi))

/-- The interpolated column height drawn inside a tape region:
`int(L + (x - lo) / (hi - lo) * (R - L))` where `L`, `R` are the two
edge estimates.  The quotient is the source's `progress`. -/
def interp_height (lo hi L R x : ℕ) : ℤ :=
  pyInt ((L : ℚ) + ((x : ℚ) - (lo : ℚ)) / ((hi : ℚ) - (lo : ℚ)) * ((R : ℚ) - (L : ℚ)))

/-- Median height estimate just left of a region (`left_ref_height`,
`right_ref_height`): sampled on `[max(0, lo - sample_range), lo)`
(truncated ℕ subtraction is the `max(0, ·)`). -/
def left_estimate (counts : List ℕ) (width lo : ℕ) : ℕ :=
  calculate_median_height counts (lo - sample_range width) lo

/-- Median height estimate just right of a region (`left_right_height`,
`right_right_height`): sampled on `[hi, min(width, hi + sample_range))`. -/
def right_estimate (counts : List ℕ) (width hi : ℕ) : ℕ :=
  calculate_median_height counts hi (min width (hi + sample_range width))

/-- The interpolation fill applied to column `x` by the trapezoid loop of
one tape region `[lo, hi)`: one fill of the interpolated height when both
edge estimates are positive and `x` lies in the region, nothing
otherwise (the `if left_ref_height > 0 and left_right_height > 0` guard). -/
def region_fill (counts : List ℕ) (width lo hi x : ℕ) : List ℤ :=
  if inRegion lo hi x ∧ 0 < left_estimate counts width lo ∧
      0 < right_estimate counts width hi then
    [interp_height lo hi (left_estimate counts width lo) (right_estimate counts width hi) x]
  else []

/-- Height contributed to column `x` by one region's interpolation fill
(0 when no fill is drawn there). -/
def region_fill_val (counts : List ℕ) (width lo hi x : ℕ) : ℕ :=
  if inRegion lo hi x ∧ 0 < left_estimate counts width lo ∧
      0 < right_estimate counts width hi then
    (interp_height lo hi (left_estimate counts width lo) (right_estimate counts width hi)
      x).toNat
  else 0

/-- The bottom-aligned fills written into column `x` of `export_array` by
`process_tape_regions(..., for_export=True)`, in program order: the base
color fill of height `counts[x]` (guarded by `count > 0`), then the two
tape-region interpolation fills. -/
def column_fills (counts : List ℕ) (width : ℕ) (tape : (ℕ × ℕ) × (ℕ × ℕ)) (x : ℕ) :
    List ℤ :=
  (if 0 < counts.getD x 0 then [(counts.getD x 0 : ℤ)] else []) ++
    region_fill counts width tape.1.1 tape.1.2 x ++
    region_fill counts width tape.2.1 tape.2.2 x

/-- `export_array[max_height - h : max_height, x] = 1` acting on one
column, the column being its cell predicate on rows `y < max_height`.
This matches numpy slicing whenever `0 ≤ max_height - h`; the theorems
below only use it with `h ≤ max_height`. -/
def apply_fill (max_height : ℕ) (h : ℤ) (col : ℕ → Bool) : ℕ → Bool :=
  fun y => if (max_height : ℤ) - h ≤ (y : ℤ) then true else col y

/-- Column `x` of the export array produced by
`process_tape_regions(counts, width, max_height, color, tape_edges,
for_export=True)` (starting from the all-zero array). -/
def export_column (counts : List ℕ) (width max_height : ℕ)
    (tape : (ℕ × ℕ) × (ℕ × ℕ)) (x : ℕ) : ℕ → Bool :=
  (column_fills counts width tape x).foldl (fun col h => apply_fill max_height h col)
    (fun _ => false)

/-- Number of set cells in column `x` of the export array. -/
def export_colCount (counts : List ℕ) (width max_height : ℕ)
    (tape : (ℕ × ℕ) × (ℕ × ℕ)) (x : ℕ) : ℕ :=
  (List.range max_height).countP (export_column counts width max_height tape x)

/-- Largest fill height of a fill list, clamped below at 0 (bottom-aligned
fills of a column overwrite each other, so the tallest one determines the
set cells). -/
def fills_max (hs : List ℤ) : ℕ := hs.foldr (fun h a => max h.toNat a) 0

/-! ## Ball detector (`new_detection.py`) -/

/-- The entries of `WATERSHED_PARAMS` that influence the detected
centers.  `distance_weight` is always overwritten with 0 and the
`visualization` sizes only affect drawing, so they are not carried. -/
structure WatershedParams where
  binary_threshold : ℕ
  foreground_threshold : ℚ
  min_area : ℕ

/-- The OpenCV routines called by `detect_balls`.  They are external
library code (not part of this repository), so they are abstracted as
functions of their inputs; theorems that need a property of them state
it as an explicit library-contract hypothesis. -/
structure CVOps where
  distanceTransform : (ℕ → ℕ → ℕ) → (ℕ → ℕ → ℚ)
  connectedComponents : (ℕ → ℕ → ℕ) → (ℕ → ℕ → ℕ)
  watershed : (ℕ → ℕ → ℕ) → (ℕ → ℕ → ℤ) → (ℕ → ℕ → ℤ)

/-- All pixel coordinates `(y, x)` of a `height × width` grid. -/
def cells (height width : ℕ) : List (ℕ × ℕ) :=
  (List.range height).flatMap fun y => (List.range width).map fun x => (y, x)

/-- `scale_factor = min(width / standard_width, height / standard_height)`
with the reference resolution `standard_width = 5510`,
`standard_height = 408`. -/
def scale_factor (height width : ℕ) : ℚ :=
  min ((width : ℚ) / 5510) ((height : ℚ) / 408)

/-- `scaled_params['min_area'] = max(10, int(min_area * scale_factor * scale_factor))`. -/
def scaled_min_area (min_area : ℕ) (s : ℚ) : ℕ :=
  max 10 (pyInt ((min_area : ℚ) * s * s)).toNat

/-- Resolution-adjusted binary threshold (`max(0, bt - 1)` is the
truncated ℕ subtraction). -/
def scaled_binary_threshold (bt : ℕ) (s : ℚ) : ℕ :=
  if s < 1 / 2 then min 10 (bt + 2) else if 2 < s then bt - 1 else bt

/-- Resolution-adjusted foreground threshold fraction. -/
def scaled_foreground_threshold (f : ℚ) (s : ℚ) : ℚ :=
  if s < 1 / 2 then min (9 / 10) (f + 1 / 10)
  else if 2 < s then max (1 / 10) (f - 1 / 10) else f

/-- `cv2.threshold(gray, bt, 255, cv2.THRESH_BINARY)`. -/
def binary_image (bt : ℕ) (gray : ℕ → ℕ → ℕ) : ℕ → ℕ → ℕ :=
  fun y x => if bt < gray y x then 255 else 0

/-- numpy `.max()` over a non-empty grid of floats (folded over all
cells starting from the corner pixel, which agrees with numpy on every
non-empty grid). -/
def grid_max (height width : ℕ) (f : ℕ → ℕ → ℚ) : ℚ :=
  ((cells height width).map fun c => f c.1 c.2).foldl max (f 0 0)

/-- `cv2.threshold(dist_transform, fg_threshold, 255, 0)` followed by
`np.uint8`. -/
def sure_fg_image (fgT : ℚ) (dist : ℕ → ℕ → ℚ) : ℕ → ℕ → ℕ :=
  fun y x => if fgT < dist y x then 255 else 0

/-- `markers = markers + 1; markers[binary == 0] = 0` applied to the
connected-component labels. -/
def pre_watershed_markers (binary : ℕ → ℕ → ℕ) (cc : ℕ → ℕ → ℕ) : ℕ → ℕ → ℤ :=
  fun y x => if binary y x = 0 then 0 else (cc y x : ℤ) + 1

/-- The markers array after `cv2.watershed` (lines 128–158 of
`new_detection.py`): binarize at the scaled threshold, distance
transform, sure-foreground extraction at
`foreground_threshold * dist_transform.max()`, connected components,
shift labels by +1, zero outside the binary mask, watershed. -/
def detect_markers (ops : CVOps) (p : WatershedParams) (height width : ℕ)
    (gray : ℕ → ℕ → ℕ) : ℕ → ℕ → ℤ :=
  ops.watershed gray
    (pre_watershed_markers
      (binary_image (scaled_binary_threshold p.binary_threshold
        (scale_factor height width)) gray)
      (ops.connectedComponents
        (sure_fg_image
          (scaled_foreground_threshold p.foreground_threshold (scale_factor height width) *
            grid_max height width
              (ops.distanceTransform
                (binary_image (scaled_binary_threshold p.binary_threshold
                  (scale_factor height width)) gray)))
          (ops.distanceTransform
            (binary_image (scaled_binary_threshold p.binary_threshold
              (scale_factor height width)) gray)))))

/-- `markers.max()` (agrees with numpy on every non-empty grid). -/
def markers_max (height width : ℕ) (m : ℕ → ℕ → ℤ) : ℤ :=
  ((cells height width).map fun c => m c.1 c.2).foldl max (m 0 0)

/-- Pixel area of the region labelled `label`:
`cv2.countNonZero(np.uint8(markers == label))`. -/
def region_area (height width : ℕ) (m : ℕ → ℕ → ℤ) (label : ℤ) : ℕ :=
  (cells height width).countP fun c => decide (m c.1 c.2 = label)

/-- First moment `M["m10"]` of the 0/1 region mask (sum of `x`). -/
def region_m10 (height width : ℕ) (m : ℕ → ℕ → ℤ) (label : ℤ) : ℕ :=
  (((cells height width).filter fun c => decide (m c.1 c.2 = label)).map fun c => c.2).sum

/-- First moment `M["m01"]` of the 0/1 region mask (sum of `y`). -/
def region_m01 (height width : ℕ) (m : ℕ → ℕ → ℤ) (label : ℤ) : ℕ :=
  (((cells height width).filter fun c => decide (m c.1 c.2 = label)).map fun c => c.1).sum

/-- `(cx, cy) = (int(M["m10"] / M["m00"]), int(M["m01"] / M["m00"]))`;
for the 0/1 mask `M["m00"]` is the pixel area, and the quantities are
non-negative so `int` truncation is ℕ division. -/
def region_center (height width : ℕ) (m : ℕ → ℕ → ℤ) (label : ℤ) : ℕ × ℕ :=
  (region_m10 height width m label / region_area height width m label,
   region_m01 height width m label / region_area height width m label)

/-- The labels `range(2, markers.max() + 1)` visited by the filter loop. -/
def label_list (maxLabel : ℤ) : List ℤ :=
  (List.range (maxLabel - 1).toNat).map fun i : ℕ => (i : ℤ) + 2

/-- Result of `detect_balls`: the centers list, the visualization
contents (center circles, ball-count text, timestamp text, resolution
text) and the debug log (empty unless the debug flag is set). -/
structure DetectResult where
  centers : List (ℕ × ℕ)
  vizCircles : List (ℕ × ℕ)
  vizBallCount : ℕ
  vizTimestamp : String
  vizResolution : ℕ × ℕ
  debugLog : List String

/-- The filtering loop of `detect_balls` (lines 162–186): for every
label in `range(2, markers.max() + 1)`, keep the region's centroid when
its area reaches the scaled `min_area` (the `m00 ≠ 0` guard of the
source is kept as `region_area ≠ 0`, since `m00` of the 0/1 mask is the
area). -/
def detect_centers (ops : CVOps) (p : WatershedParams) (height width : ℕ)
    (gray : ℕ → ℕ → ℕ) : List (ℕ × ℕ) :=
  (label_list (markers_max height width (detect_markers ops p height width gray))).filterMap
    fun label =>
      if scaled_min_area p.min_area (scale_factor height width) ≤
          region_area height width (detect_markers ops p height width gray) label then
        if region_area height width (detect_markers ops p height width gray) label ≠ 0 then
          some (region_center height width (detect_markers ops p height width gray) label)
        else none
      else none

/-- `BallDetector.detect_balls` on a grayscale grid.  `debug` is the
module-global `PRINT_DEBUG_OUTPUT` flag (it only guards `print` calls,
modelled as the debug log) and `now` is the wall-clock string read by
`time.strftime` for the visualization timestamp. -/
def detect_balls (ops : CVOps) (p : WatershedParams) (height width : ℕ)
    (gray : ℕ → ℕ → ℕ) (debug : Bool) (now : String) : DetectResult :=
  { centers := detect_centers ops p height width gray
    vizCircles := detect_centers ops p height width gray
    vizBallCount := (detect_centers ops p height width gray).length
    vizTimestamp := "Timestamp: " ++ now
    vizResolution := (width, height)
    debugLog := if debug then ["Ball Detection Debug"] else [] }

/-- Concrete watershed output used to exercise the detector on a small
grid: one region labelled 2 covering the `4 × 3` top-left block. -/
def test_watershed : ℕ → ℕ → ℤ :=
  fun y x => if y < 4 ∧ x < 3 then 2 else 0

/-- Concrete OpenCV operations for exercising the detector. -/
def test_ops : CVOps :=
  ⟨fun _ _ _ => 0, fun _ _ _ => 0, fun _ _ => test_watershed⟩

/-- Concrete parameter set (the `WATERSHED_PARAMS` defaults). -/
def test_params : WatershedParams := ⟨1, 11 / 20, 500⟩

/-! ## Theorems -/

lemma scaleDivisorGo_ge (w : ℕ) : ∀ fuel d, d ≤ scaleDivisorGo w fuel d := by
  intro fuel
  induction fuel with
  | zero => intro d; simp [scaleDivisorGo]
  | succ n ih =>
    intro d
    simp only [scaleDivisorGo]
    split
    · exact le_trans (Nat.le_succ d) (ih (d + 1))
    · exact le_refl d

lemma scaleDivisorGo_le (w : ℕ) : ∀ fuel d, 1000 * d ≤ w →
    1000 * scaleDivisorGo w fuel d ≤ w := by
  intro fuel
  induction fuel with
  | zero => intro d h; simpa [scaleDivisorGo] using h
  | succ n ih =>
    intro d h
    simp only [scaleDivisorGo]
    split
    · exact ih (d + 1) (by omega)
    · exact h

/-- On exit (with enough fuel) the loop guard fails:
`1000 * (result + 1) > w`. -/
lemma scaleDivisorGo_exit (w : ℕ) : ∀ fuel d, w < 1000 * (d + fuel + 1) →
    w < 1000 * (scaleDivisorGo w fuel d + 1) := by
  intro fuel
  induction fuel with
  | zero => intro d h; simpa [scaleDivisorGo] using h
  | succ n ih =>
    intro d h
    simp only [scaleDivisorGo]
    split
    · exact ih (d + 1) (by omega)
    · omega

/-- The loop result dominates every divisor `e ≥ d` still satisfying the
guard (maximality of the returned divisor). -/
lemma scaleDivisorGo_max (w : ℕ) : ∀ fuel d e, d ≤ e → 1000 * e ≤ w →
    e ≤ d + fuel → e ≤ scaleDivisorGo w fuel d := by
  intro fuel
  induction fuel with
  | zero => intro d e h1 _ h3; simp [scaleDivisorGo]; omega
  | succ n ih =>
    intro d e h1 h2 h3
    simp only [scaleDivisorGo]
    split
    · rcases Nat.eq_or_lt_of_le h1 with h | hlt
      · subst h; exact le_trans (Nat.le_succ d) (scaleDivisorGo_ge w n (d + 1))
      · exact ih (d + 1) e hlt h2 (by omega)
    · -- guard fails at `d`, so `1000 * (d+1) > w ≥ 1000 * e`, hence `e ≤ d`
      rename_i hguard
      omega

lemma calculate_scale_factor_ge_one (w : ℕ) : 1 ≤ calculate_scale_factor w :=
  scaleDivisorGo_ge w w 1

lemma calculate_scale_factor_le (w : ℕ) (h : 1000 ≤ w) :
    1000 * calculate_scale_factor w ≤ w :=
  scaleDivisorGo_le w w 1 (by omega)

lemma calculate_scale_factor_exit (w : ℕ) :
    w < 1000 * (calculate_scale_factor w + 1) :=
  scaleDivisorGo_exit w w 1 (by nlinarith)

lemma calculate_scale_factor_max (w e : ℕ) (h1 : 1 ≤ e) (h2 : 1000 * e ≤ w) :
    e ≤ calculate_scale_factor w :=
  scaleDivisorGo_max w w 1 e h1 h2 (by omega)

lemma calculate_scale_factor_of_lt (w : ℕ) (h : w < 1000) :
    calculate_scale_factor w = 1 := by
  unfold calculate_scale_factor
  cases w with
  | zero => rfl
  | succ n =>
    simp only [scaleDivisorGo]
    split
    · omega
    · rfl

/-- Claim C2, counterexample: at input width 2000 the scaler outputs
width 1000, which is NOT the largest value ≤ 2000 of the form `2000/d`
(integer `d ≥ 1`) that is `≥ min_width` — that largest value is 2000
itself (`d = 1`). -/
theorem scale_image_width_not_greatest :
    scale_image_width 2000 = 1000 ∧
      ¬ IsGreatest {v : ℕ | ∃ d : ℕ, 1 ≤ d ∧ v = 2000 / d ∧ 1000 ≤ v ∧ v ≤ 2000}
        (scale_image_width 2000) := by
  have hle : 1000 * calculate_scale_factor 2000 ≤ 2000 :=
    calculate_scale_factor_le 2000 (by norm_num)
  have hexit : 2000 < 1000 * (calculate_scale_factor 2000 + 1) :=
    calculate_scale_factor_exit 2000
  have hd : calculate_scale_factor 2000 = 2 := by omega
  have hw : scale_image_width 2000 = 1000 := by
    unfold scale_image_width
    rw [hd]
  refine ⟨hw, ?_⟩
  rintro ⟨-, hub⟩
  have h2000 : (2000 : ℕ) ∈ {v : ℕ | ∃ d : ℕ, 1 ≤ d ∧ v = 2000 / d ∧ 1000 ≤ v ∧ v ≤ 2000} :=
    ⟨1, by norm_num⟩
  have := hub h2000
  omega

/-- Claim C2 (corrected): for `w ≥ min_width = 1000` the output width of
`ImageScaler.scale_image` is the SMALLEST value of the form `⌊w/d⌋`
(integer `d ≥ 1`) that is still `≥ 1000` (equivalently, `⌊w/d⌋` for the
largest divisor `d` with `w/d ≥ 1000`), in particular it is `≥ 1000`;
and for `w < 1000` the output width is `w` itself (`d = 1`). -/
theorem scale_image_width_least (w : ℕ) :
    (1000 ≤ w →
      IsLeast {v : ℕ | ∃ d : ℕ, 1 ≤ d ∧ v = w / d ∧ 1000 ≤ v} (scale_image_width w)) ∧
    (w < 1000 → scale_image_width w = w) := by
  constructor
  · intro hw
    have hd1 : 1 ≤ calculate_scale_factor w := calculate_scale_factor_ge_one w
    have hle : 1000 * calculate_scale_factor w ≤ w := calculate_scale_factor_le w hw
    constructor
    · exact ⟨calculate_scale_factor w, hd1, rfl,
        (Nat.le_div_iff_mul_le (by omega)).2 (by omega)⟩
    · rintro v ⟨d, hd, rfl, hv⟩
      have hdw : 1000 * d ≤ w := by
        have := (Nat.le_div_iff_mul_le (by omega : 0 < d)).1 hv
        omega
      have hmax : d ≤ calculate_scale_factor w := calculate_scale_factor_max w d hd hdw
      exact Nat.div_le_div_left hmax (by omega)
  · intro hw
    unfold scale_image_width
    rw [calculate_scale_factor_of_lt w hw, Nat.div_one]

/-- Witness for C2 at concrete width 3000: the scaler's output width is
the least achievable width `≥ 1000`. -/
theorem scale_image_width_least_witness :
    IsLeast {v : ℕ | ∃ d : ℕ, 1 ≤ d ∧ v = 3000 / d ∧ 1000 ≤ v} (scale_image_width 3000) :=
  (scale_image_width_least 3000).1 (by norm_num)

/-! ### Peak search (`max(range, key=...)`) -/

lemma foldl_maxBy_mem (key : ℕ → ℕ) :
    ∀ (xs : List ℕ) (b : ℕ),
      xs.foldl (fun u y => if key u < key y then y else u) b ∈ b :: xs := by
  intro xs
  induction xs with
  | nil => intro b; simp
  | cons y ys ih =>
    intro b
    simp only [List.foldl_cons]
    have h := ih (if key b < key y then y else b)
    rcases List.mem_cons.1 h with h1 | h1
    · rw [h1]
      split
      · simp
      · simp
    · simp [h1]

lemma key_le_foldl_maxBy (key : ℕ → ℕ) :
    ∀ (xs : List ℕ) (b : ℕ),
      key b ≤ key (xs.foldl (fun u y => if key u < key y then y else u) b) := by
  intro xs
  induction xs with
  | nil => intro b; simp
  | cons y ys ih =>
    intro b
    simp only [List.foldl_cons]
    refine le_trans ?_ (ih (if key b < key y then y else b))
    split
    · omega
    · exact le_refl _

lemma foldl_maxBy_le (key : ℕ → ℕ) :
    ∀ (xs : List ℕ) (b q : ℕ), q ∈ b :: xs →
      key q ≤ key (xs.foldl (fun u y => if key u < key y then y else u) b) := by
  intro xs
  induction xs with
  | nil =>
    intro b q hq
    rcases List.mem_cons.1 hq with h | h
    · subst h; simp
    · simp at h
  | cons y ys ih =>
    intro b q hq
    simp only [List.foldl_cons]
    have hb : key b ≤ key (if key b < key y then y else b) := by split <;> omega
    have hy : key y ≤ key (if key b < key y then y else b) := by split <;> omega
    rcases List.mem_cons.1 hq with h | h
    · subst h
      exact le_trans hb (key_le_foldl_maxBy key ys _)
    · rcases List.mem_cons.1 h with h1 | h1
      · subst h1
        exact le_trans hy (key_le_foldl_maxBy key ys _)
      · exact ih _ q (List.mem_cons_of_mem _ h1)

lemma maxByKey_mem (key : ℕ → ℕ) (l : List ℕ) (p : ℕ) (h : maxByKey key l = some p) :
    p ∈ l := by
  cases l with
  | nil => simp [maxByKey] at h
  | cons x xs =>
    simp only [maxByKey, Option.some_inj] at h
    subst h
    exact foldl_maxBy_mem key xs x

lemma maxByKey_le (key : ℕ → ℕ) (l : List ℕ) (p : ℕ) (h : maxByKey key l = some p) :
    ∀ q ∈ l, key q ≤ key p := by
  cases l with
  | nil => simp [maxByKey] at h
  | cons x xs =>
    simp only [maxByKey, Option.some_inj] at h
    subst h
    intro q hq
    exact foldl_maxBy_le key xs x q hq

lemma maxByKey_isSome (key : ℕ → ℕ) (l : List ℕ) (h : l ≠ []) :
    ∃ p, maxByKey key l = some p := by
  cases l with
  | nil => exact absurd rfl h
  | cons x xs => exact ⟨_, rfl⟩

/-! ### Edge scans of `find_tape_edges` -/

lemma edge_left_scan_le (counts : List ℕ) (th : ℕ) :
    ∀ p, edge_left_scan counts th p ≤ p := by
  intro p
  induction p with
  | zero => simp [edge_left_scan]
  | succ q ih =>
    simp only [edge_left_scan]
    split
    · omega
    · exact le_refl _

lemma edge_left_scan_mono (counts : List ℕ) (th : ℕ) :
    ∀ q p, p ≤ q → edge_left_scan counts th p ≤ edge_left_scan counts th q := by
  intro q
  induction q with
  | zero =>
    intro p hp
    have hp0 : p = 0 := by omega
    subst hp0
    exact le_refl _
  | succ n ih =>
    intro p hp
    rcases Nat.eq_or_lt_of_le hp with h | h
    · subst h; exact le_refl _
    · have hpn : p ≤ n := by omega
      conv_rhs => rw [edge_left_scan]
      split
      · exact ih p hpn
      · exact le_trans (edge_left_scan_le counts th p) (by omega)

lemma edge_right_go_ge (counts : List ℕ) (th w : ℕ) :
    ∀ fuel p, p ≤ edge_right_go counts th w fuel p := by
  intro fuel
  induction fuel with
  | zero => intro p; simp [edge_right_go]
  | succ n ih =>
    intro p
    simp only [edge_right_go]
    split
    · exact le_trans (Nat.le_succ p) (ih (p + 1))
    · exact le_refl _

lemma edge_right_go_le (counts : List ℕ) (th w : ℕ) :
    ∀ fuel p, p ≤ w - 1 → edge_right_go counts th w fuel p ≤ w - 1 := by
  intro fuel
  induction fuel with
  | zero => intro p hp; simpa [edge_right_go] using hp
  | succ n ih =>
    intro p hp
    simp only [edge_right_go]
    split
    · rename_i hc
      exact ih (p + 1) (by omega)
    · exact hp

/-- With fuel at least `w - 1 - p` the loop runs to completion: the exit
condition fails at the result. -/
lemma edge_right_go_exit (counts : List ℕ) (th w : ℕ) :
    ∀ fuel p, w - 1 - p ≤ fuel →
      ¬(edge_right_go counts th w fuel p < w - 1 ∧
        th < counts.getD (edge_right_go counts th w fuel p) 0) := by
  intro fuel
  induction fuel with
  | zero =>
    intro p hp
    simp only [edge_right_go]
    omega
  | succ n ih =>
    intro p hp
    simp only [edge_right_go]
    split
    · rename_i hc
      exact ih (p + 1) (by omega)
    · rename_i hc
      exact hc

/-- Every position strictly between the start and the result satisfies
the loop condition. -/
lemma edge_right_go_between (counts : List ℕ) (th w : ℕ) :
    ∀ fuel p s, p ≤ s → s < edge_right_go counts th w fuel p →
      s < w - 1 ∧ th < counts.getD s 0 := by
  intro fuel
  induction fuel with
  | zero =>
    intro p s hps hs
    simp only [edge_right_go] at hs
    omega
  | succ n ih =>
    intro p s hps hs
    simp only [edge_right_go] at hs
    by_cases hc : p < w - 1 ∧ th < counts.getD p 0
    · rw [if_pos hc] at hs
      rcases Nat.eq_or_lt_of_le hps with h | h
      · subst h; exact hc
      · exact ih (p + 1) s h hs
    · rw [if_neg hc] at hs
      omega

lemma edge_right_scan_ge (counts : List ℕ) (th w p : ℕ) :
    p ≤ edge_right_scan counts th w p :=
  edge_right_go_ge counts th w _ p

lemma edge_right_scan_le (counts : List ℕ) (th w p : ℕ) (hp : p ≤ w - 1) :
    edge_right_scan counts th w p ≤ w - 1 :=
  edge_right_go_le counts th w _ p hp

lemma edge_right_scan_mono (counts : List ℕ) (th w p q : ℕ) (h : p ≤ q) :
    edge_right_scan counts th w p ≤ edge_right_scan counts th w q := by
  by_contra hlt
  push_neg at hlt
  have h1 : p ≤ edge_right_scan counts th w q :=
    le_trans h (edge_right_scan_ge counts th w q)
  have h2 := edge_right_go_between counts th w (w - 1 - p) p
    (edge_right_scan counts th w q) h1 hlt
  exact edge_right_go_exit counts th w (w - 1 - q) q (le_refl _) h2

/-- If the loop condition holds at the start, the scan advances. -/
lemma edge_right_scan_advance (counts : List ℕ) (th w p : ℕ)
    (h1 : p < w - 1) (h2 : th < counts.getD p 0) :
    p + 1 ≤ edge_right_scan counts th w p := by
  unfold edge_right_scan
  have hf : ∃ f, w - 1 - p = f + 1 := ⟨w - 1 - p - 1, by omega⟩
  obtain ⟨f, hf⟩ := hf
  rw [hf]
  simp only [edge_right_go]
  rw [if_pos ⟨h1, h2⟩]
  exact edge_right_go_ge counts th w f (p + 1)

/-! ### `analyze_white_tape`: inversion and zone facts -/

lemma analyze_white_tape_inv (counts : List ℕ) (w mh : ℕ)
    (res : (ℕ × ℕ) × (ℕ × ℕ)) (h : analyze_white_tape counts w mh = some res) :
    ∃ lp rp,
      maxByKey (tape_key counts (height_threshold mh)) (left_zone w) = some lp ∧
      maxByKey (tape_key counts (height_threshold mh)) (right_zone w) = some rp ∧
      res = (find_tape_edges counts (height_threshold mh) w lp,
             find_tape_edges counts (height_threshold mh) w rp) := by
  unfold analyze_white_tape at h
  cases hl : maxByKey (tape_key counts (height_threshold mh)) (left_zone w) with
  | none => rw [hl] at h; simp at h
  | some lp =>
    cases hr : maxByKey (tape_key counts (height_threshold mh)) (right_zone w) with
    | none => rw [hl, hr] at h; simp at h
    | some rp =>
      rw [hl, hr] at h
      simp only [Option.some_inj] at h
      exact ⟨lp, rp, rfl, rfl, h.symm⟩

lemma mem_left_zone (w p : ℕ) (h : p ∈ left_zone w) :
    w / 4 ≤ p ∧ p < 9 * w / 20 := by
  have := List.mem_range'_1.1 h
  omega

lemma mem_right_zone (w p : ℕ) (h : p ∈ right_zone w) :
    11 * w / 20 ≤ p ∧ p < 3 * w / 4 := by
  have := List.mem_range'_1.1 h
  omega

/-- A peak found in a zone containing a column above the height
threshold is itself above the height threshold. -/
lemma peak_above_threshold (counts : List ℕ) (th : ℕ) (zone : List ℕ) (p : ℕ)
    (hp : maxByKey (tape_key counts th) zone = some p)
    (hx : ∃ x ∈ zone, th < counts.getD x 0) : th < counts.getD p 0 := by
  obtain ⟨x, hxz, hxth⟩ := hx
  have hle := maxByKey_le (tape_key counts th) zone p hp x hxz
  by_contra hc
  push_neg at hc
  unfold tape_key at hle
  rw [if_pos hxth, if_neg (by omega : ¬th < counts.getD p 0)] at hle
  omega

/-- Claim C7, counterexample: at width 1 both search zones are empty and
`analyze_white_tape` raises `ValueError` (modelled as `none`) instead of
returning a pair of regions. -/
theorem analyze_white_tape_width_one : analyze_white_tape [0] 1 0 = none := rfl

/-- Every width ≥ 5 makes both search zones non-empty (the converse
fails: width 3 also has non-empty zones). -/
lemma zones_nonempty_of_five_le (w : ℕ) (h : 5 ≤ w) :
    left_zone w ≠ [] ∧ right_zone w ≠ [] := by
  have h1 : w / 4 < 9 * w / 20 := by omega
  have h2 : 11 * w / 20 < 3 * w / 4 := by omega
  constructor
  · unfold left_zone
    rw [Ne, List.range'_eq_nil]
    omega
  · unfold right_zone
    rw [Ne, List.range'_eq_nil]
    omega

/-- Claim C7 (corrected): for every width whose two search zones are
both non-empty — which includes width 3 and, by
`zones_nonempty_of_five_le`, every width ≥ 5 — `analyze_white_tape`
returns a pair of regions (no exception), for every profile and max
height. -/
theorem analyze_white_tape_total (counts : List ℕ) (w mh : ℕ)
    (hl : left_zone w ≠ []) (hr : right_zone w ≠ []) :
    (analyze_white_tape counts w mh).isSome = true := by
  obtain ⟨lp, hlp⟩ := maxByKey_isSome (tape_key counts (height_threshold mh)) _ hl
  obtain ⟨rp, hrp⟩ := maxByKey_isSome (tape_key counts (height_threshold mh)) _ hr
  unfold analyze_white_tape
  rw [hlp, hrp]
  rfl

/-- Witness for C7 at width 3, the smallest width with both search zones
non-empty (`range(0, 1)` and `range(1, 2)`). -/
theorem analyze_white_tape_total_witness :
    (analyze_white_tape [0, 0, 0] 3 3).isSome = true :=
  analyze_white_tape_total [0, 0, 0] 3 3 (by decide) (by decide)

/-- Claim C3, counterexample: on the profile `[10,10,10,10,10]` (width 5,
max height 10, both zones non-empty) both regions expand to `(0, 4)`:
the right edge of the left region (4) is NOT at most the left edge of
the right region (0) — the regions overlap completely. -/
theorem analyze_white_tape_overlap_counterexample :
    analyze_white_tape [10, 10, 10, 10, 10] 5 10 = some ((0, 4), (0, 4)) ∧
      ¬((4 : ℕ) ≤ 0) := by
  constructor
  · rfl
  · decide

/-- Claim C3 (corrected): the two regions returned by
`analyze_white_tape` are weakly ordered left-to-right — the left
region's left edge is at most the right region's left edge and likewise
for the right edges — but they may overlap, since the edge scans may
leave the (disjoint) search zones. -/
theorem analyze_white_tape_ordered (counts : List ℕ) (w mh a b c d : ℕ)
    (h : analyze_white_tape counts w mh = some ((a, b), (c, d))) :
    a ≤ c ∧ b ≤ d := by
  obtain ⟨lp, rp, hlp, hrp, heq⟩ := analyze_white_tape_inv counts w mh _ h
  unfold find_tape_edges at heq
  have ha : a = edge_left_scan counts (height_threshold mh) lp := by
    have := congrArg (fun z => z.1.1) heq; simpa using this
  have hb : b = edge_right_scan counts (height_threshold mh) w lp := by
    have := congrArg (fun z => z.1.2) heq; simpa using this
  have hc : c = edge_left_scan counts (height_threshold mh) rp := by
    have := congrArg (fun z => z.2.1) heq; simpa using this
  have hd : d = edge_right_scan counts (height_threshold mh) w rp := by
    have := congrArg (fun z => z.2.2) heq; simpa using this
  have hlpz := mem_left_zone w lp (maxByKey_mem _ _ _ hlp)
  have hrpz := mem_right_zone w rp (maxByKey_mem _ _ _ hrp)
  have hle : lp ≤ rp := by omega
  subst ha hb hc hd
  exact ⟨edge_left_scan_mono counts (height_threshold mh) rp lp hle,
    edge_right_scan_mono counts (height_threshold mh) w lp rp hle⟩

/-- Witness for C3 on a profile with two isolated peaks. -/
theorem analyze_white_tape_ordered_witness : (1 : ℕ) ≤ 5 ∧ (3 : ℕ) ≤ 7 :=
  analyze_white_tape_ordered [0, 0, 10, 0, 0, 0, 10, 0, 0, 0] 10 10 1 3 5 7 (by decide)

/-- Claim C4, counterexample: on the all-zero profile (width 5, max
height 10) no column exceeds the height threshold, the peaks degenerate
to the zones' first columns and both regions are returned with
`left_edge = right_edge` — the strict invariant `left_edge < right_edge`
fails. -/
theorem analyze_white_tape_degenerate_counterexample :
    analyze_white_tape [0, 0, 0, 0, 0] 5 10 = some ((1, 1), (2, 2)) ∧
      ¬((1 : ℕ) < 1) := by
  constructor
  · rfl
  · decide

/-- Claim C4 (corrected): every region `(left_edge, right_edge)` returned
by `analyze_white_tape` satisfies `0 ≤ left_edge ≤ right_edge ≤ width - 1
< width`; the strict `left_edge < right_edge` holds whenever some column
of the corresponding search zone exceeds the height threshold (otherwise
the region may be degenerate with `left_edge = right_edge`). -/
theorem analyze_white_tape_edge_bounds (counts : List ℕ) (w mh a b c d : ℕ)
    (h : analyze_white_tape counts w mh = some ((a, b), (c, d))) :
    (a ≤ b ∧ b ≤ w - 1 ∧ c ≤ d ∧ d ≤ w - 1) ∧
      ((∃ x ∈ left_zone w, height_threshold mh < counts.getD x 0) → a < b) ∧
      ((∃ x ∈ right_zone w, height_threshold mh < counts.getD x 0) → c < d) := by
  obtain ⟨lp, rp, hlp, hrp, heq⟩ := analyze_white_tape_inv counts w mh _ h
  unfold find_tape_edges at heq
  have ha : a = edge_left_scan counts (height_threshold mh) lp := by
    have := congrArg (fun z => z.1.1) heq; simpa using this
  have hb : b = edge_right_scan counts (height_threshold mh) w lp := by
    have := congrArg (fun z => z.1.2) heq; simpa using this
  have hc : c = edge_left_scan counts (height_threshold mh) rp := by
    have := congrArg (fun z => z.2.1) heq; simpa using this
  have hd : d = edge_right_scan counts (height_threshold mh) w rp := by
    have := congrArg (fun z => z.2.2) heq; simpa using this
  have hlpz := mem_left_zone w lp (maxByKey_mem _ _ _ hlp)
  have hrpz := mem_right_zone w rp (maxByKey_mem _ _ _ hrp)
  have hwpos : 3 ≤ w := by omega
  have hlpw : lp ≤ w - 1 := by omega
  have hrpw : rp ≤ w - 1 := by omega
  refine ⟨⟨?_, ?_, ?_, ?_⟩, ?_, ?_⟩
  · subst ha hb
    exact le_trans (edge_left_scan_le counts _ lp) (edge_right_scan_ge counts _ w lp)
  · subst hb
    exact edge_right_scan_le counts _ w lp hlpw
  · subst hc hd
    exact le_trans (edge_left_scan_le counts _ rp) (edge_right_scan_ge counts _ w rp)
  · subst hd
    exact edge_right_scan_le counts _ w rp hrpw
  · intro hx
    have hth := peak_above_threshold counts (height_threshold mh) (left_zone w) lp hlp hx
    subst ha hb
    cases hlpcase : lp with
    | zero =>
      rw [hlpcase] at hth
      have hadv := edge_right_scan_advance counts (height_threshold mh) w 0 (by omega) hth
      simp only [edge_left_scan]
      omega
    | succ p =>
      rw [hlpcase] at hth
      have h1 : edge_left_scan counts (height_threshold mh) (p + 1) ≤ p := by
        simp only [edge_left_scan]
        rw [if_pos hth]
        exact edge_left_scan_le counts _ p
      have h2 := edge_right_scan_ge counts (height_threshold mh) w (p + 1)
      omega
  · intro hx
    have hth := peak_above_threshold counts (height_threshold mh) (right_zone w) rp hrp hx
    subst hc hd
    cases hrpcase : rp with
    | zero =>
      rw [hrpcase] at hth
      have hadv := edge_right_scan_advance counts (height_threshold mh) w 0 (by omega) hth
      simp only [edge_left_scan]
      omega
    | succ p =>
      rw [hrpcase] at hth
      have h1 : edge_left_scan counts (height_threshold mh) (p + 1) ≤ p := by
        simp only [edge_left_scan]
        rw [if_pos hth]
        exact edge_left_scan_le counts _ p
      have h2 := edge_right_scan_ge counts (height_threshold mh) w (p + 1)
      omega

/-- Witness for C4 on a profile with two isolated peaks. -/
theorem analyze_white_tape_edge_bounds_witness :
    (((1 : ℕ) ≤ 3 ∧ (3 : ℕ) ≤ 9 ∧ (5 : ℕ) ≤ 7 ∧ (7 : ℕ) ≤ 9) ∧ (1 : ℕ) < 3 ∧ (5 : ℕ) < 7) :=
  by
  have h := analyze_white_tape_edge_bounds [0, 0, 10, 0, 0, 0, 10, 0, 0, 0] 10 10
    1 3 5 7 (by decide)
  exact ⟨h.1, h.2.1 (by decide), h.2.2 (by decide)⟩

/-! ### Median (`calculate_median_height`) -/

/-- In a sorted list, at least `k + 1` elements are `≤` the element at
index `k`. -/
lemma sorted_countP_le (v : List ℕ) (hv : v.Sorted (· ≤ ·)) :
    ∀ (k : ℕ) (hk : k < v.length),
      k < v.countP (fun x => decide (x ≤ v.get ⟨k, hk⟩)) := by
  induction v with
  | nil => intro k hk; simp at hk
  | cons a t ih =>
    intro k hk
    cases k with
    | zero =>
      rw [List.countP_cons]
      simp
    | succ k' =>
      have hk' : k' < t.length := by simpa using hk
      have hget : (a :: t).get ⟨k' + 1, hk⟩ = t.get ⟨k', hk'⟩ := rfl
      rw [hget, List.countP_cons]
      have hha : a ≤ t.get ⟨k', hk'⟩ :=
        List.rel_of_sorted_cons hv _ (t.get_mem _ _)
      have := ih hv.of_cons k' hk'
      simp only [decide_eq_true_eq]
      rw [if_pos hha]
      omega

/-- In a sorted list, at most `k` elements are `<` the element at
index `k`. -/
lemma sorted_countP_lt (v : List ℕ) (hv : v.Sorted (· ≤ ·)) :
    ∀ (k : ℕ) (hk : k < v.length),
      v.countP (fun x => decide (x < v.get ⟨k, hk⟩)) ≤ k := by
  induction v with
  | nil => intro k hk; simp at hk
  | cons a t ih =>
    intro k hk
    cases k with
    | zero =>
      rw [List.countP_cons]
      have hz : t.countP (fun x => decide (x < (a :: t).get ⟨0, hk⟩)) = 0 := by
        rw [List.countP_eq_zero]
        intro x hx
        have := List.rel_of_sorted_cons hv x hx
        simp only [List.get, decide_eq_true_eq]
        omega
      simp only [List.get] at hz ⊢
      rw [hz]
      simp
    | succ k' =>
      have hk' : k' < t.length := by simpa using hk
      have hget : (a :: t).get ⟨k' + 1, hk⟩ = t.get ⟨k', hk'⟩ := rfl
      rw [hget, List.countP_cons]
      have := ih hv.of_cons k' hk'
      split <;> omega

/-- On a non-empty positive-value list, `calculate_median_height` is the
sorted list's entry at index `⌊n/2⌋`. -/
lemma median_get_spec (counts : List ℕ) (s e : ℕ)
    (hne : positive_heights counts s e ≠ []) :
    ∃ hk : (positive_heights counts s e).length / 2 <
        ((positive_heights counts s e).insertionSort (· ≤ ·)).length,
      calculate_median_height counts s e =
        ((positive_heights counts s e).insertionSort (· ≤ ·)).get
          ⟨(positive_heights counts s e).length / 2, hk⟩ := by
  have hperm := List.perm_insertionSort (· ≤ ·) (positive_heights counts s e)
  have hlen : ((positive_heights counts s e).insertionSort (· ≤ ·)).length =
      (positive_heights counts s e).length := hperm.length_eq
  have hnpos : 0 < (positive_heights counts s e).length := List.length_pos.2 hne
  have hk : (positive_heights counts s e).length / 2 <
      ((positive_heights counts s e).insertionSort (· ≤ ·)).length := by omega
  refine ⟨hk, ?_⟩
  unfold calculate_median_height
  rw [if_neg (by simp [hne])]
  exact List.getD_eq_get _ _ hk

lemma calculate_median_height_mem (counts : List ℕ) (s e : ℕ)
    (hne : positive_heights counts s e ≠ []) :
    calculate_median_height counts s e ∈ positive_heights counts s e := by
  obtain ⟨hk, hval⟩ := median_get_spec counts s e hne
  rw [hval]
  exact (List.perm_insertionSort (· ≤ ·) _).subset (List.get_mem _ _ _)

lemma positive_heights_subset (counts : List ℕ) (s e : ℕ) :
    ∀ c ∈ positive_heights counts s e, c ∈ counts := by
  intro c hc
  unfold positive_heights at hc
  exact List.mem_of_mem_drop (List.mem_of_mem_take (List.mem_of_mem_filter hc))

lemma calculate_median_height_le (counts : List ℕ) (s e mh : ℕ)
    (hb : ∀ c ∈ counts, c ≤ mh) : calculate_median_height counts s e ≤ mh := by
  by_cases hne : positive_heights counts s e = []
  · unfold calculate_median_height
    rw [if_pos (by simp [hne])]
    exact Nat.zero_le mh
  · exact hb _ (positive_heights_subset counts s e _
      (calculate_median_height_mem counts s e hne))

/-- Claim C6, counterexample: on `counts = [1, 3]` over the full range
the strictly positive values are `{1, 3}`, whose median is 2, but
`calculate_median_height` returns the upper middle element 3. -/
theorem calculate_median_height_even_counterexample :
    calculate_median_height [1, 3] 0 2 = 3 ∧ ((3 : ℚ) ≠ (1 + 3) / 2) := by
  constructor
  · rfl
  · norm_num

/-- Claim C6 (corrected): `calculate_median_height(counts, start, end)`
returns 0 when `counts[start:end]` has no strictly positive value (and
then the affected region's interpolation fill is skipped entirely), and
otherwise returns the UPPER median of the strictly positive values: the
element at index `⌊n/2⌋` of their sorted arrangement — a member of the
positive values with at most `⌊n/2⌋` of them strictly below it and at
least `⌊n/2⌋ + 1` of them at most it.  For odd `n` this is exactly the
median; for even `n` it is the larger middle element, not the midpoint
average. -/
theorem calculate_median_height_upper_median (counts : List ℕ) (s e : ℕ) :
    (positive_heights counts s e = [] → calculate_median_height counts s e = 0) ∧
      (positive_heights counts s e ≠ [] →
        calculate_median_height counts s e ∈ positive_heights counts s e ∧
        2 * (positive_heights counts s e).countP
            (fun v => decide (v < calculate_median_height counts s e)) ≤
          (positive_heights counts s e).length ∧
        (positive_heights counts s e).length <
          2 * (positive_heights counts s e).countP
            (fun v => decide (v ≤ calculate_median_height counts s e))) ∧
      (∀ width lo hi x : ℕ,
        left_estimate counts width lo = 0 ∨ right_estimate counts width hi = 0 →
        region_fill counts width lo hi x = []) := by
  refine ⟨?_, ?_, ?_⟩
  · intro hempty
    unfold calculate_median_height
    rw [if_pos (by simp [hempty])]
  · intro hne
    obtain ⟨hk, hval⟩ := median_get_spec counts s e hne
    have hperm := List.perm_insertionSort (· ≤ ·) (positive_heights counts s e)
    have hsorted := List.sorted_insertionSort (· ≤ ·) (positive_heights counts s e)
    have hlen : ((positive_heights counts s e).insertionSort (· ≤ ·)).length =
        (positive_heights counts s e).length := hperm.length_eq
    refine ⟨calculate_median_height_mem counts s e hne, ?_, ?_⟩
    · have hcount := sorted_countP_lt _ hsorted _ hk
      have hcp : (positive_heights counts s e).countP
          (fun v => decide (v < calculate_median_height counts s e)) =
          ((positive_heights counts s e).insertionSort (· ≤ ·)).countP
            (fun v => decide (v < calculate_median_height counts s e)) :=
        (hperm.countP_eq _).symm
      rw [hcp, hval]
      omega
    · have hcount := sorted_countP_le _ hsorted _ hk
      have hcp : (positive_heights counts s e).countP
          (fun v => decide (v ≤ calculate_median_height counts s e)) =
          ((positive_heights counts s e).insertionSort (· ≤ ·)).countP
            (fun v => decide (v ≤ calculate_median_height counts s e)) :=
        (hperm.countP_eq _).symm
      rw [hcp, hval]
      omega
  · intro width lo hi x hzero
    unfold region_fill
    rw [if_neg]
    rintro ⟨-, hL, hR⟩
    rcases hzero with h0 | h0 <;> omega

/-- Witness for C6 at `counts = [1, 3]`: the returned value 3 is a member
of the positive values and an upper median. -/
theorem calculate_median_height_upper_median_witness :
    calculate_median_height [1, 3] 0 2 ∈ positive_heights [1, 3] 0 2 ∧
      2 * (positive_heights [1, 3] 0 2).countP
          (fun v => decide (v < calculate_median_height [1, 3] 0 2)) ≤
        (positive_heights [1, 3] 0 2).length ∧
      (positive_heights [1, 3] 0 2).length <
        2 * (positive_heights [1, 3] 0 2).countP
          (fun v => decide (v ≤ calculate_median_height [1, 3] 0 2)) :=
  (calculate_median_height_upper_median [1, 3] 0 2).2.1 (by decide)

/-! ### Guardedness of the interpolation quotient -/

lemma region_den_facts (l r : ℕ) (h : l ≤ r) :
    (∀ x, inRegion l r x → ((r : ℚ) - (l : ℚ)) ≠ 0) ∧
      ((∃ x, inRegion l r x) ↔ ((r : ℚ) - (l : ℚ)) ≠ 0) := by
  have hlt : ∀ x, inRegion l r x → l < r := by
    rintro x ⟨hx1, hx2⟩
    omega
  have hne : l < r → ((r : ℚ) - (l : ℚ)) ≠ 0 := by
    intro hlr
    have : (l : ℚ) < (r : ℚ) := by exact_mod_cast hlr
    exact sub_ne_zero_of_ne (ne_of_gt this)
  refine ⟨fun x hx => hne (hlt x hx), ?_, ?_⟩
  · rintro ⟨x, hx⟩
    exact hne (hlt x hx)
  · intro hd
    have hlr : l < r := by
      rcases Nat.eq_or_lt_of_le h with heq | hlt'
      · exact absurd (by rw [heq]; ring) hd
      · exact hlt'
    exact ⟨l, le_refl l, hlr⟩

/-- Claim C10 (confirmed): for tape regions with `left_edge ≤
right_edge`, `process_tape_regions` never divides by zero.  The
interpolation quotient's denominator `(right_edge : ℚ) - left_edge`
(the `right - left` of `interp_height`) is evaluated only at columns `x`
with `inRegion left right x`, i.e. `x ∈ [left, right)`; at every such
column the denominator is non-zero, and such a column exists exactly
when the denominator is non-zero (a degenerate region has an empty
column range). -/
theorem interp_region_no_div_zero (l1 r1 l2 r2 : ℕ) (h1 : l1 ≤ r1) (h2 : l2 ≤ r2) :
    ((∀ x, inRegion l1 r1 x → ((r1 : ℚ) - (l1 : ℚ)) ≠ 0) ∧
      ((∃ x, inRegion l1 r1 x) ↔ ((r1 : ℚ) - (l1 : ℚ)) ≠ 0)) ∧
    ((∀ x, inRegion l2 r2 x → ((r2 : ℚ) - (l2 : ℚ)) ≠ 0) ∧
      ((∃ x, inRegion l2 r2 x) ↔ ((r2 : ℚ) - (l2 : ℚ)) ≠ 0)) :=
  ⟨region_den_facts l1 r1 h1, region_den_facts l2 r2 h2⟩

/-- Witness for C10 at the regions `(2, 3)` and `(4, 4)`. -/
theorem interp_region_no_div_zero_witness :
    ((∀ x, inRegion 2 3 x → ((3 : ℚ) - (2 : ℚ)) ≠ 0) ∧
      ((∃ x, inRegion 2 3 x) ↔ ((3 : ℚ) - (2 : ℚ)) ≠ 0)) ∧
    ((∀ x, inRegion 4 4 x → ((4 : ℚ) - (4 : ℚ)) ≠ 0) ∧
      ((∃ x, inRegion 4 4 x) ↔ ((4 : ℚ) - (4 : ℚ)) ≠ 0)) := by
  have h := interp_region_no_div_zero 2 3 4 4 (by norm_num) (by norm_num)
  exact_mod_cast h

/-! ### Export array characterization (`process_tape_regions`, `for_export=True`) -/

lemma foldl_apply_fill_eq (mh : ℕ) :
    ∀ (hs : List ℤ) (col : ℕ → Bool) (y : ℕ),
      (hs.foldl (fun c h => apply_fill mh h c) col) y =
        (col y || hs.any fun h => decide ((mh : ℤ) - h ≤ (y : ℤ))) := by
  intro hs
  induction hs with
  | nil => intro col y; simp
  | cons h t ih =>
    intro col y
    simp only [List.foldl_cons, List.any_cons]
    rw [ih]
    unfold apply_fill
    by_cases hc : (mh : ℤ) - h ≤ (y : ℤ)
    · simp [hc]
    · simp [hc]

lemma export_column_iff (counts : List ℕ) (width mh : ℕ) (tape : (ℕ × ℕ) × (ℕ × ℕ))
    (x y : ℕ) :
    export_column counts width mh tape x y = true ↔
      ∃ h ∈ column_fills counts width tape x, (mh : ℤ) - h ≤ (y : ℤ) := by
  unfold export_column
  rw [foldl_apply_fill_eq]
  simp [List.any_eq_true]

lemma int_fill_le_iff (mh y : ℕ) (hy : y < mh) (h : ℤ) :
    ((mh : ℤ) - h ≤ (y : ℤ)) ↔ mh - h.toNat ≤ y := by
  rcases le_or_lt h 0 with hle | hpos
  · have h0 : h.toNat = 0 := Int.toNat_of_nonpos hle
    rw [h0]
    omega
  · have h1 : (h.toNat : ℤ) = h := Int.toNat_of_nonneg (le_of_lt hpos)
    omega

lemma exists_fill_le_iff (mh y : ℕ) (hy : y < mh) :
    ∀ hs : List ℤ, (∃ h ∈ hs, (mh : ℤ) - h ≤ (y : ℤ)) ↔ mh - fills_max hs ≤ y := by
  intro hs
  induction hs with
  | nil =>
    constructor
    · rintro ⟨h, hmem, -⟩
      simp at hmem
    · intro hcon
      exfalso
      simp only [fills_max, List.foldr_nil] at hcon
      omega
  | cons h t ih =>
    have hstep := int_fill_le_iff mh y hy h
    have hmax : fills_max (h :: t) = max h.toNat (fills_max t) := rfl
    constructor
    · rintro ⟨g, hg, hgy⟩
      rcases List.mem_cons.1 hg with rfl | hgt
      · have := hstep.1 hgy
        rw [hmax]
        omega
      · have := ih.1 ⟨g, hgt, hgy⟩
        rw [hmax]
        omega
    · intro hle
      rw [hmax] at hle
      by_cases hcase : mh - fills_max t ≤ y
      · obtain ⟨g, hgt, hgy⟩ := ih.2 hcase
        exact ⟨g, List.mem_cons_of_mem _ hgt, hgy⟩
      · have hh : mh - h.toNat ≤ y := by omega
        exact ⟨h, List.mem_cons_self _ _, hstep.2 hh⟩

lemma countP_range'_ge (t : ℕ) : ∀ (n s : ℕ),
    (List.range' s n).countP (fun y => decide (t ≤ y)) = s + n - max s t := by
  intro n
  induction n with
  | zero =>
    intro s
    simp only [List.range'_zero, List.countP_nil]
    omega
  | succ m ih =>
    intro s
    rw [List.range'_succ, List.countP_cons, ih (s + 1)]
    by_cases hts : t ≤ s
    · rw [if_pos (by simpa using hts)]
      omega
    · rw [if_neg (by simpa using hts)]
      omega

lemma export_colCount_eq_min (counts : List ℕ) (width mh : ℕ)
    (tape : (ℕ × ℕ) × (ℕ × ℕ)) (x : ℕ) :
    export_colCount counts width mh tape x =
      min (fills_max (column_fills counts width tape x)) mh := by
  unfold export_colCount
  rw [List.countP_congr (q := fun y =>
    decide (mh - fills_max (column_fills counts width tape x) ≤ y)) ?_]
  · rw [List.range_eq_range', countP_range'_ge]
    omega
  · intro y hy
    have hy' : y < mh := List.mem_range.1 hy
    rw [decide_eq_true_eq]
    exact (export_column_iff counts width mh tape x y).trans
      (exists_fill_le_iff mh y hy' _)

lemma fills_max_foldr_init : ∀ (a : List ℤ) (i : ℕ),
    a.foldr (fun h acc => max h.toNat acc) i = max (fills_max a) i := by
  intro a
  induction a with
  | nil => intro i; simp [fills_max]
  | cons h t ih =>
    intro i
    simp only [List.foldr_cons, fills_max] at *
    rw [ih i]
    omega

lemma fills_max_append (a b : List ℤ) :
    fills_max (a ++ b) = max (fills_max a) (fills_max b) := by
  unfold fills_max
  rw [List.foldr_append]
  exact fills_max_foldr_init a _

lemma fills_max_base (c : ℕ) :
    fills_max (if 0 < c then [(c : ℤ)] else []) = c := by
  split
  · simp [fills_max]
  · rename_i hc
    simp only [fills_max, List.foldr_nil]
    omega

lemma fills_max_region (counts : List ℕ) (width lo hi x : ℕ) :
    fills_max (region_fill counts width lo hi x) =
      region_fill_val counts width lo hi x := by
  unfold region_fill region_fill_val
  split
  · simp [fills_max]
  · rfl

lemma pyInt_toNat_le (q : ℚ) (mh : ℕ) (h : q ≤ (mh : ℚ)) : (pyInt q).toNat ≤ mh := by
  unfold pyInt
  split
  · rename_i hneg
    have h1 : (0 : ℤ) ≤ ⌊-q⌋ := Int.floor_nonneg.2 (by linarith)
    have h2 : -⌊-q⌋ ≤ 0 := by omega
    rw [Int.toNat_of_nonpos h2]
    exact Nat.zero_le mh
  · have h1 : ⌊q⌋ ≤ (mh : ℤ) := by
      calc ⌊q⌋ ≤ ⌊(mh : ℚ)⌋ := Int.floor_le_floor h
        _ = (mh : ℤ) := Int.floor_natCast mh
    exact Int.toNat_le.2 h1

/-- Inside the region the interpolated height never exceeds the larger
edge estimate, so stays within `mh` when both estimates do. -/
lemma interp_height_toNat_le (lo hi L R x mh : ℕ) (hx : inRegion lo hi x)
    (hL : L ≤ mh) (hR : R ≤ mh) : (interp_height lo hi L R x).toNat ≤ mh := by
  obtain ⟨hx1, hx2⟩ := hx
  have hlohi : lo < hi := by omega
  have hden : (0 : ℚ) < (hi : ℚ) - (lo : ℚ) := by
    have : (lo : ℚ) < (hi : ℚ) := by exact_mod_cast hlohi
    linarith
  have hnum0 : (0 : ℚ) ≤ (x : ℚ) - (lo : ℚ) := by
    have : (lo : ℚ) ≤ (x : ℚ) := by exact_mod_cast hx1
    linarith
  have hp0 : 0 ≤ ((x : ℚ) - lo) / ((hi : ℚ) - lo) := div_nonneg hnum0 (le_of_lt hden)
  have hp1 : ((x : ℚ) - lo) / ((hi : ℚ) - lo) ≤ 1 := by
    rw [div_le_one hden]
    have : (x : ℚ) < (hi : ℚ) := by exact_mod_cast hx2
    linarith
  have hLq : (L : ℚ) ≤ (mh : ℚ) := by exact_mod_cast hL
  have hRq : (R : ℚ) ≤ (mh : ℚ) := by exact_mod_cast hR
  apply pyInt_toNat_le
  rcases le_total (R : ℚ) (L : ℚ) with hRL | hLR
  · nlinarith [mul_nonneg hp0 (sub_nonneg.2 hRL)]
  · nlinarith [mul_nonneg (sub_nonneg.2 hp1) (sub_nonneg.2 hLR)]

lemma getD_le_of_forall (counts : List ℕ) (mh x : ℕ) (hb : ∀ c ∈ counts, c ≤ mh) :
    counts.getD x 0 ≤ mh := by
  by_cases hx : x < counts.length
  · rw [List.getD_eq_getElem counts 0 hx]
    exact hb _ (List.getElem_mem hx)
  · rw [List.getD_eq_default counts 0 (by omega)]
    exact Nat.zero_le mh

lemma region_fill_val_le (counts : List ℕ) (width lo hi x mh : ℕ)
    (hb : ∀ c ∈ counts, c ≤ mh) : region_fill_val counts width lo hi x ≤ mh := by
  unfold region_fill_val left_estimate right_estimate
  split
  · rename_i hcond
    exact interp_height_toNat_le lo hi _ _ x mh hcond.1
      (calculate_median_height_le counts _ _ mh hb)
      (calculate_median_height_le counts _ _ mh hb)
  · exact Nat.zero_le mh

/-- Core characterization of the export array: in every column the number
of set cells is the maximum of the base profile height and the
interpolation heights of the regions covering that column. -/
lemma export_colCount_max_formula (counts : List ℕ) (width mh l1 r1 l2 r2 x : ℕ)
    (hb : ∀ c ∈ counts, c ≤ mh) :
    export_colCount counts width mh ((l1, r1), (l2, r2)) x =
      max (counts.getD x 0)
        (max (region_fill_val counts width l1 r1 x)
          (region_fill_val counts width l2 r2 x)) := by
  rw [export_colCount_eq_min]
  have hsplit : fills_max (column_fills counts width ((l1, r1), (l2, r2)) x) =
      max (counts.getD x 0)
        (max (region_fill_val counts width l1 r1 x)
          (region_fill_val counts width l2 r2 x)) := by
    simp only [column_fills]
    rw [fills_max_append, fills_max_append, fills_max_base, fills_max_region,
      fills_max_region]
    exact max_assoc _ _ _
  rw [hsplit]
  have h1 := getD_le_of_forall counts mh x hb
  have h2 := region_fill_val_le counts width l1 r1 x mh hb
  have h3 := region_fill_val_le counts width l2 r2 x mh hb
  omega

/-- Claim C1, counterexample: `counts = [2,2,5,2,2]`, width 5, max
height 5, tape regions `(2,3)` and `(4,4)`.  Column 2 lies inside region
`(2,3)`, both edge estimates are positive (both equal 2) and the
interpolated height is 2, yet the export array has 5 set cells in that
column: the interpolation fill is drawn ON TOP of the original color
fill of height `counts[2] = 5`, which is not cleared. -/
theorem export_colCount_interp_counterexample :
    inRegion 2 3 2 ∧
      0 < left_estimate [2, 2, 5, 2, 2] 5 2 ∧
      0 < right_estimate [2, 2, 5, 2, 2] 5 3 ∧
      export_colCount [2, 2, 5, 2, 2] 5 5 ((2, 3), (4, 4)) 2 = 5 ∧
      (interp_height 2 3 (left_estimate [2, 2, 5, 2, 2] 5 2)
        (right_estimate [2, 2, 5, 2, 2] 5 3) 2).toNat = 2 ∧
      (5 : ℕ) ≠ 2 := by
  have hsr : sample_range 5 = 1 := by norm_num [sample_range, pyInt]
  have hle : left_estimate [2, 2, 5, 2, 2] 5 2 = 2 := by
    unfold left_estimate
    rw [hsr]
    decide
  have hre : right_estimate [2, 2, 5, 2, 2] 5 3 = 2 := by
    unfold right_estimate
    rw [hsr]
    decide
  have hint : interp_height 2 3 2 2 2 = 2 := by
    unfold interp_height pyInt
    norm_num
  have hval1 : region_fill_val [2, 2, 5, 2, 2] 5 2 3 2 = 2 := by
    unfold region_fill_val
    rw [if_pos ⟨by decide, by rw [hle]; norm_num, by rw [hre]; norm_num⟩]
    rw [hle, hre, hint]
    rfl
  have hval2 : region_fill_val [2, 2, 5, 2, 2] 5 4 4 2 = 0 := by
    unfold region_fill_val
    rw [if_neg]
    rintro ⟨hreg, -⟩
    exact absurd hreg (by decide)
  have hcount : export_colCount [2, 2, 5, 2, 2] 5 5 ((2, 3), (4, 4)) 2 = 5 := by
    rw [export_colCount_max_formula _ _ _ _ _ _ _ _ (by decide), hval1, hval2]
    decide
  exact ⟨by decide, by rw [hle]; norm_num, by rw [hre]; norm_num, hcount,
    by rw [hle, hre, hint]; rfl, by norm_num⟩

/-- Claim C1 (corrected): for every profile (length = width, entries in
`[0, max_height]`) and every tape-edge pair with `right_edge ≤ width`,
the export array of `process_tape_regions(..., for_export=True)` has, in
every column `x < width`, a number of set cells equal to `counts[x]` for
columns outside both regions, and equal to the MAXIMUM of `counts[x]`
and the linearly interpolated height(s) for columns inside a region
whose two edge estimates are positive (the interpolation is drawn over
the original fill, which is never cleared; `region_fill_val` is the
interpolated height where drawn and 0 elsewhere). -/
theorem export_colCount_roundtrip (counts : List ℕ) (width mh l1 r1 l2 r2 x : ℕ)
    (hlen : counts.length = width) (hb : ∀ c ∈ counts, c ≤ mh)
    (hr1 : r1 ≤ width) (hr2 : r2 ≤ width) (hx : x < width) :
    (¬inRegion l1 r1 x → ¬inRegion l2 r2 x →
        export_colCount counts width mh ((l1, r1), (l2, r2)) x = counts.getD x 0) ∧
      export_colCount counts width mh ((l1, r1), (l2, r2)) x =
        max (counts.getD x 0)
          (max (region_fill_val counts width l1 r1 x)
            (region_fill_val counts width l2 r2 x)) := by
  have hform := export_colCount_max_formula counts width mh l1 r1 l2 r2 x hb
  refine ⟨?_, hform⟩
  intro hn1 hn2
  have hv1 : region_fill_val counts width l1 r1 x = 0 := by
    unfold region_fill_val
    rw [if_neg]
    rintro ⟨hreg, -⟩
    exact hn1 hreg
  have hv2 : region_fill_val counts width l2 r2 x = 0 := by
    unfold region_fill_val
    rw [if_neg]
    rintro ⟨hreg, -⟩
    exact hn2 hreg
  rw [hform, hv1, hv2]
  omega

/-- Witness for C1 at column 0 of the counterexample configuration. -/
theorem export_colCount_roundtrip_witness :
    (¬inRegion 2 3 0 → ¬inRegion 4 4 0 →
        export_colCount [2, 2, 5, 2, 2] 5 5 ((2, 3), (4, 4)) 0 =
          [2, 2, 5, 2, 2].getD 0 0) ∧
      export_colCount [2, 2, 5, 2, 2] 5 5 ((2, 3), (4, 4)) 0 =
        max ([2, 2, 5, 2, 2].getD 0 0)
          (max (region_fill_val [2, 2, 5, 2, 2] 5 2 3 0)
            (region_fill_val [2, 2, 5, 2, 2] 5 4 4 0)) :=
  export_colCount_roundtrip [2, 2, 5, 2, 2] 5 5 2 3 4 4 0 (by decide) (by decide)
    (by decide) (by decide) (by decide)

/-! ### Ball detector (`detect_balls`) -/

lemma label_list_mem (maxLabel label : ℤ) (h : label ∈ label_list maxLabel) :
    2 ≤ label ∧ label ≤ maxLabel := by
  unfold label_list at h
  rw [List.mem_map] at h
  obtain ⟨i, hi, rfl⟩ := h
  rw [List.mem_range] at hi
  rcases le_or_lt (maxLabel - 1) 0 with hle | hpos
  · rw [Int.toNat_of_nonpos hle] at hi
    omega
  · have hcast : ((maxLabel - 1).toNat : ℤ) = maxLabel - 1 :=
      Int.toNat_of_nonneg (by omega)
    omega

/-- Claim C5 (confirmed): every center returned by
`BallDetector.detect_balls` comes from a watershed region with label
`≥ 2` (and at most the markers maximum) whose pixel area is at least the
resolution-scaled minimum area `max(10, int(min_area · scale²))`, with
`scale = min(width/5510, height/408)`, and equals that region's centroid;
regions with smaller area are discarded by the filter. -/
theorem detect_balls_min_area (ops : CVOps) (p : WatershedParams) (height width : ℕ)
    (gray : ℕ → ℕ → ℕ) (debug : Bool) (now : String) (c : ℕ × ℕ)
    (hc : c ∈ (detect_balls ops p height width gray debug now).centers) :
    ∃ label : ℤ, 2 ≤ label ∧
      label ≤ markers_max height width (detect_markers ops p height width gray) ∧
      scaled_min_area p.min_area (scale_factor height width) ≤
        region_area height width (detect_markers ops p height width gray) label ∧
      c = region_center height width (detect_markers ops p height width gray) label := by
  have hc' : c ∈ detect_centers ops p height width gray := hc
  unfold detect_centers at hc'
  rw [List.mem_filterMap] at hc'
  obtain ⟨label, hmem, heq⟩ := hc'
  have hlab := label_list_mem _ _ hmem
  refine ⟨label, hlab.1, hlab.2, ?_, ?_⟩
  · by_contra harea
    rw [if_neg harea] at heq
    exact Option.noConfusion heq
  · split at heq
    · split at heq
      · exact (Option.some_inj.1 heq).symm
      · exact Option.noConfusion heq
    · exact Option.noConfusion heq

/-- Witness for C5: on a 4×4 grid whose watershed output is one
12-pixel region labelled 2, the detector returns its centroid `(1, 1)`
and the region satisfies the filter conditions. -/
theorem detect_balls_min_area_witness :
    ((1, 1) ∈ (detect_balls test_ops test_params 4 4 (fun _ _ => 0) false "t").centers) ∧
      ∃ label : ℤ, 2 ≤ label ∧
        label ≤ markers_max 4 4 (detect_markers test_ops test_params 4 4 (fun _ _ => 0)) ∧
        scaled_min_area test_params.min_area (scale_factor 4 4) ≤
          region_area 4 4 (detect_markers test_ops test_params 4 4 (fun _ _ => 0)) label ∧
        ((1 : ℕ), (1 : ℕ)) =
          region_center 4 4 (detect_markers test_ops test_params 4 4 (fun _ _ => 0)) label := by
  have hm : detect_markers test_ops test_params 4 4 (fun _ _ => 0) = test_watershed := rfl
  have hma : scaled_min_area test_params.min_area (scale_factor 4 4) = 10 := by
    show scaled_min_area 500 (scale_factor 4 4) = 10
    unfold scaled_min_area scale_factor pyInt
    rw [min_def]
    norm_num
  have hmem : (1, 1) ∈ (detect_balls test_ops test_params 4 4 (fun _ _ => 0) false "t").centers := by
    show (1, 1) ∈ detect_centers test_ops test_params 4 4 (fun _ _ => 0)
    unfold detect_centers
    rw [hm, hma]
    decide
  exact ⟨hmem,
    detect_balls_min_area test_ops test_params 4 4 (fun _ _ => 0) false "t" (1, 1) hmem⟩

lemma foldl_max_le (b : ℤ) : ∀ (l : List ℤ) (i : ℤ), i ≤ b → (∀ z ∈ l, z ≤ b) →
    l.foldl max i ≤ b := by
  intro l
  induction l with
  | nil => intro i hi _; simpa using hi
  | cons z t ih =>
    intro i hi hz
    simp only [List.foldl_cons]
    exact ih (max i z) (max_le hi (hz z (List.mem_cons_self _ _)))
      fun u hu => hz u (List.mem_cons_of_mem _ hu)

lemma markers_max_le_one (height width : ℕ) (m : ℕ → ℕ → ℤ)
    (h : ∀ y x, m y x ≤ 1) : markers_max height width m ≤ 1 := by
  unfold markers_max
  apply foldl_max_le 1 _ _ (h 0 0)
  intro z hz
  rw [List.mem_map] at hz
  obtain ⟨c, -, rfl⟩ := hz
  exact h c.1 c.2

lemma detect_centers_nil_of_markers_le (ops : CVOps) (p : WatershedParams)
    (height width : ℕ) (gray : ℕ → ℕ → ℕ)
    (h : ∀ y x, detect_markers ops p height width gray y x ≤ 1) :
    detect_centers ops p height width gray = [] := by
  unfold detect_centers
  have hmax : markers_max height width (detect_markers ops p height width gray) ≤ 1 :=
    markers_max_le_one height width _ h
  have hz : (markers_max height width (detect_markers ops p height width gray) - 1).toNat
      = 0 := Int.toNat_of_nonpos (by omega)
  unfold label_list
  rw [hz]
  rfl

/-- Claim C8 (confirmed): `detect_balls` returns an empty centers list
(and no exception — the embedding is total) whenever the watershed
markers array's maximum label does not exceed 1; in particular, for
every input grid in which no pixel exceeds the scaled binary threshold
(no foreground pixels), under the documented library contract that
`cv2.watershed` only assigns labels drawn from its input markers (so an
input bounded by 1 yields an output bounded by 1). -/
theorem detect_balls_empty_result (ops : CVOps) (p : WatershedParams)
    (height width : ℕ) (gray : ℕ → ℕ → ℕ) (debug : Bool) (now : String) :
    ((∀ y x, detect_markers ops p height width gray y x ≤ 1) →
        (detect_balls ops p height width gray debug now).centers = []) ∧
      ((∀ g m, (∀ y x, m y x ≤ 1) → ∀ y x, ops.watershed g m y x ≤ 1) →
        (∀ y x, gray y x ≤
          scaled_binary_threshold p.binary_threshold (scale_factor height width)) →
        (detect_balls ops p height width gray debug now).centers = []) := by
  constructor
  · intro h
    exact detect_centers_nil_of_markers_le ops p height width gray h
  · intro hws hgray
    have hb0 : ∀ y x, binary_image (scaled_binary_threshold p.binary_threshold
        (scale_factor height width)) gray y x = 0 := by
      intro y x
      unfold binary_image
      rw [if_neg (not_lt.2 (hgray y x))]
    apply detect_centers_nil_of_markers_le ops p height width gray
    intro y x
    unfold detect_markers
    apply hws
    intro y' x'
    unfold pre_watershed_markers
    simp [hb0]

/-- Witness for C8: the all-zero 1×1 grid with an identity-like
watershed yields no balls. -/
theorem detect_balls_empty_result_witness :
    (detect_balls ⟨fun _ _ _ => 0, fun _ _ _ => 0, fun _ m => m⟩ test_params 1 1
      (fun _ _ => 0) false "t").centers = [] :=
  (detect_balls_empty_result ⟨fun _ _ _ => 0, fun _ _ _ => 0, fun _ m => m⟩ test_params
    1 1 (fun _ _ => 0) false "t").2
    (fun _ m hm y x => hm y x)
    (fun _ _ => Nat.zero_le _)

/-- Claim C9 (confirmed): the centers output of `detect_balls` is
deterministic and independent of the global debug flag and of the wall
clock — two runs on the same grid with any debug flags and timestamps
return identical centers lists (and identical visualization circles);
only the visualization differs through its embedded timestamp text. -/
theorem detect_balls_deterministic (ops : CVOps) (p : WatershedParams)
    (height width : ℕ) (gray : ℕ → ℕ → ℕ) (d1 d2 : Bool) (t1 t2 : String) :
    (detect_balls ops p height width gray d1 t1).centers =
        (detect_balls ops p height width gray d2 t2).centers ∧
      (detect_balls ops p height width gray d1 t1).vizCircles =
        (detect_balls ops p height width gray d2 t2).vizCircles ∧
      (detect_balls ops p height width gray d1 t1).vizTimestamp = "Timestamp: " ++ t1 :=
  ⟨rfl, rfl, rfl⟩

end RoboScore
